import Mathlib

/-!
# Verification of the serial tool's session engine (src/main.rs)

Shallow embedding of the hex codec (`parse_hex`, `format_hex`), the port
gateway (`port_exists`), and the session engine (`send_message`,
`monitor_port`) of the Rust program, together with proofs of the spec's
claims about them.

Rust strings are modelled as `List Char` (Rust `char` and Lean `Char` are
both Unicode scalar values); Rust byte-index slicing of a `str` is modelled
by `byteSlice`, which fails (like a Rust panic) when an index is out of
range or not on a UTF-8 character boundary.  Bytes (`u8`) are modelled as
`Nat` with `< 256` side conditions where they matter.
-/

set_option maxHeartbeats 1000000
set_option maxRecDepth 4000

namespace SerialTool

/-- Rust `char::is_whitespace`: the Unicode White_Space property.
The full set of White_Space code points, transcribed from the Unicode
property list used by Rust. -/
def rustIsWhitespace (c : Char) : Bool :=
  let n := c.toNat
  (0x09 ≤ n && n ≤ 0x0D) || n == 0x20 || n == 0x85 || n == 0xA0 ||
  n == 0x1680 || (0x2000 ≤ n && n ≤ 0x200A) || n == 0x2028 || n == 0x2029 ||
  n == 0x202F || n == 0x205F || n == 0x3000

/-- The filter used in `parse_hex`:
`.filter(|c| !c.is_whitespace() && *c != ':')`. -/
def keepChar (c : Char) : Bool :=
  !(rustIsWhitespace c) && !(c == ':')

/-- Number of bytes of the UTF-8 encoding of a scalar value
(Rust `char::len_utf8`). -/
def utf8Size (c : Char) : Nat :=
  if c.toNat ≤ 0x7F then 1
  else if c.toNat ≤ 0x7FF then 2
  else if c.toNat ≤ 0xFFFF then 3
  else 4

/-- Byte length of a string's UTF-8 encoding (Rust `str::len`). -/
def utf8Len (s : List Char) : Nat :=
  (s.map utf8Size).sum

/-- Drop exactly `n` UTF-8 bytes from the front of a string; `none` when `n`
overruns the string or falls inside a multi-byte character (the two
conditions under which Rust slicing panics at the lower index). -/
def dropBytes : List Char → Nat → Option (List Char)
  | s, 0 => some s
  | [], _ + 1 => none
  | c :: rest, n + 1 =>
    if utf8Size c ≤ n + 1 then dropBytes rest (n + 1 - utf8Size c) else none

/-- Take exactly `n` UTF-8 bytes from the front of a string; `none` when `n`
overruns the string or falls inside a multi-byte character (the two
conditions under which Rust slicing panics at the upper index). -/
def takeBytes : List Char → Nat → Option (List Char)
  | _, 0 => some []
  | [], _ + 1 => none
  | c :: rest, n + 1 =>
    if utf8Size c ≤ n + 1 then (takeBytes rest (n + 1 - utf8Size c)).map (c :: ·)
    else none

/-- Rust byte-index slicing `&s[i..j]`: `none` models the panic on an
out-of-range index or an index inside a multi-byte character. -/
def byteSlice (s : List Char) (i j : Nat) : Option (List Char) :=
  if i ≤ j then (dropBytes s i).bind (fun t => takeBytes t (j - i)) else none

/-- Rust `char::to_digit(16)`: the value of one hex digit, case-insensitive,
ASCII only (code points 48–57 are `0`–`9`, 97–102 are `a`–`f`, 65–70 are
`A`–`F`). -/
def hexDigitValue (c : Char) : Option Nat :=
  let n := c.toNat
  if 48 ≤ n ∧ n ≤ 57 then some (n - 48)
  else if 97 ≤ n ∧ n ≤ 102 then some (n - 87)
  else if 65 ≤ n ∧ n ≤ 70 then some (n - 55)
  else none

/-- The digit-accumulation loop of `u8::from_str_radix(s, 16)`: each step
multiplies by the radix and adds the digit, failing on a non-digit or on
`u8` overflow (checked arithmetic against 255). -/
def parseHexDigitsU8 : List Char → Nat → Option Nat
  | [], acc => some acc
  | c :: rest, acc =>
    match hexDigitValue c with
    | none => none
    | some d =>
      if acc * 16 + d ≤ 255 then parseHexDigitsU8 rest (acc * 16 + d) else none

/-- Rust `u8::from_str_radix(s, 16)`: empty input fails; a leading `+` is
accepted when followed by at least one digit (a leading `-` on an unsigned
type is rejected as an invalid digit, which the catch-all branch covers);
then the digits are accumulated with overflow checking. -/
def u8_from_str_radix16 (s : List Char) : Option Nat :=
  match s with
  | [] => none
  | c :: rest =>
    if c = '+' then (if rest = [] then none else parseHexDigitsU8 rest 0)
    else parseHexDigitsU8 (c :: rest) 0

/-- Outcome of a Rust function returning `anyhow::Result`, with an extra
constructor for a panic (the program aborting, e.g. on an out-of-range
string slice).  For `parse_hex`, `err` carries the offending two-character
substring that the anyhow message `无效的十六进制字节: '..'` interpolates;
the constant text around it is not modelled. -/
inductive RustResult (α : Type) where
  | ok : α → RustResult α
  | err : List Char → RustResult α
  | panicked : RustResult α
deriving DecidableEq

/-- The body of `parse_hex`'s iterator chain
`(0..filtered.len()).step_by(2).map(|i| ...).collect::<Result<Vec<u8>>>()`:
visit the byte indices in order; slice `filtered[i..i+2]` (panicking like
Rust when the slice is out of range or off a character boundary), parse the
pair with `u8::from_str_radix(_, 16)`, and stop at the first error, as
`collect` over `Result` does. -/
def parsePairsAt (filtered : List Char) : List Nat → RustResult (List Nat)
  | [] => .ok []
  | i :: rest =>
    match byteSlice filtered i (i + 2) with
    | none => .panicked
    | some pair =>
      match u8_from_str_radix16 pair with
      | none => .err pair
      | some b =>
        match parsePairsAt filtered rest with
        | .ok bs => .ok (b :: bs)
        | .err p => .err p
        | .panicked => .panicked

/-- `parse_hex` from src/main.rs: filter out whitespace and `':'`; when the
filtered byte length is odd the source only prints a warning
(`println!("十六进制字符串长度必须是偶数")`) and falls through, so the odd
check does not affect the returned value and is not part of this
definition; then parse every two-byte slice at indices `0, 2, 4, ...`
below `filtered.len()` — `(0..len).step_by(2)` produces exactly
`(len + 1) / 2` indices. -/
def parse_hex (hex_str : List Char) : RustResult (List Nat) :=
  let filtered := hex_str.filter keepChar
  let len := utf8Len filtered
  parsePairsAt filtered ((List.range ((len + 1) / 2)).map (fun j => 2 * j))

/-- One uppercase hex digit character for a value `n < 16` (code point 48
is `0`, 65 is `A`). -/
def hexDigitUpper (n : Nat) : Char :=
  if n < 10 then Char.ofNat (48 + n) else Char.ofNat (55 + n)

/-- Rust `write!(s, "{:02X}", byte)` on a `u8`: a `u8` is below 256, so the
zero-padded minimum-width-2 uppercase hex format always yields exactly the
two digits of `byte`. -/
def formatByteHex (b : Nat) : List Char :=
  [hexDigitUpper (b / 16), hexDigitUpper (b % 16)]

/-- `format_hex` from src/main.rs: fold over the enumerated byte list, as
the source's `for (i, byte) in bytes.iter().enumerate()` loop does,
pushing a space before every byte except the first, then the byte as
`{:02X}`. -/
def format_hex (bytes : List Nat) : List Char :=
  bytes.enum.foldl
    (fun acc p => acc ++ (if p.1 > 0 then [' '] else []) ++ formatByteHex p.2) []

/-- Is a byte a UTF-8 continuation byte (`0x80..=0xBF`)? -/
def isCont (b : Nat) : Bool :=
  0x80 ≤ b && b ≤ 0xBF

/-- The UTF-8 replacement character U+FFFD. -/
def replChar : Char :=
  Char.ofNat 0xFFFD

/-- Rust `String::from_utf8_lossy`: decode a byte sequence, replacing each
maximal ill-formed subsequence with one U+FFFD per rejected prefix, using
the same byte-class table as Rust's UTF-8 validator (overlong encodings,
surrogates and values above U+10FFFF are rejected through the restricted
ranges of the second byte). -/
def utf8DecodeLossy : List Nat → List Char
  | [] => []
  | b0 :: rest =>
    if b0 < 0x80 then Char.ofNat b0 :: utf8DecodeLossy rest
    else if b0 < 0xC2 then replChar :: utf8DecodeLossy rest
    else if b0 ≤ 0xDF then
      match rest with
      | [] => [replChar]
      | b1 :: rest2 =>
        if isCont b1 then
          Char.ofNat ((b0 - 0xC0) * 0x40 + (b1 - 0x80)) :: utf8DecodeLossy rest2
        else replChar :: utf8DecodeLossy (b1 :: rest2)
    else if b0 ≤ 0xEF then
      match rest with
      | [] => [replChar]
      | b1 :: rest2 =>
        if (b0 == 0xE0 && 0xA0 ≤ b1 && b1 ≤ 0xBF) ||
           (b0 == 0xED && 0x80 ≤ b1 && b1 ≤ 0x9F) ||
           (b0 != 0xE0 && b0 != 0xED && isCont b1) then
          match rest2 with
          | [] => [replChar]
          | b2 :: rest3 =>
            if isCont b2 then
              Char.ofNat ((b0 - 0xE0) * 0x1000 + (b1 - 0x80) * 0x40 + (b2 - 0x80)) ::
                utf8DecodeLossy rest3
            else replChar :: utf8DecodeLossy (b2 :: rest3)
        else replChar :: utf8DecodeLossy (b1 :: rest2)
    else if b0 ≤ 0xF4 then
      match rest with
      | [] => [replChar]
      | b1 :: rest2 =>
        if (b0 == 0xF0 && 0x90 ≤ b1 && b1 ≤ 0xBF) ||
           (b0 == 0xF4 && 0x80 ≤ b1 && b1 ≤ 0x8F) ||
           (b0 != 0xF0 && b0 != 0xF4 && isCont b1) then
          match rest2 with
          | [] => [replChar]
          | b2 :: rest3 =>
            if isCont b2 then
              match rest3 with
              | [] => [replChar]
              | b3 :: rest4 =>
                if isCont b3 then
                  Char.ofNat ((b0 - 0xF0) * 0x40000 + (b1 - 0x80) * 0x1000 +
                      (b2 - 0x80) * 0x40 + (b3 - 0x80)) :: utf8DecodeLossy rest4
                else replChar :: utf8DecodeLossy (b3 :: rest4)
            else replChar :: utf8DecodeLossy (b2 :: rest3)
        else replChar :: utf8DecodeLossy (b1 :: rest2)
    else replChar :: utf8DecodeLossy rest

/-- UTF-8 encoding of one scalar value (Rust `char::encode_utf8`). -/
def utf8EncodeChar (c : Char) : List Nat :=
  let n := c.toNat
  if n < 0x80 then [n]
  else if n < 0x800 then [0xC0 + n / 0x40, 0x80 + n % 0x40]
  else if n < 0x10000 then
    [0xE0 + n / 0x1000, 0x80 + n / 0x40 % 0x40, 0x80 + n % 0x40]
  else
    [0xF0 + n / 0x40000, 0x80 + n / 0x1000 % 0x40, 0x80 + n / 0x40 % 0x40,
     0x80 + n % 0x40]

/-- UTF-8 encoding of a string (Rust `str::as_bytes`). -/
def utf8Encode (s : List Char) : List Nat :=
  (s.map utf8EncodeChar).flatten

/-- A call the session engine makes on the open port handle.  `write` is one
`write_all(&bytes)` call carrying the full payload, `flushCall` is one
`flush()` call. -/
inductive PortOp where
  | write : List Nat → PortOp
  | flushCall : PortOp
deriving DecidableEq

/-- `send_message` from src/main.rs, with the port handle modelled as the
trace of calls issued to it: build the payload (`parse_hex(message)` when
`hex_mode`, else the message's UTF-8 bytes verbatim), then `write_all` it
and `flush`.  The trace is the sequence of calls the function makes when
the transport accepts them; a `parse_hex` failure (wrapped by the source in
the context `十六进制解析失败`) aborts before any port call. -/
def send_message (message : List Char) (hex_mode : Bool) : RustResult (List PortOp) :=
  match (if hex_mode then parse_hex message else .ok (utf8Encode message)) with
  | .ok bytes => .ok [PortOp.write bytes, PortOp.flushCall]
  | .err p => .err p
  | .panicked => .panicked

/-- `port_exists` from src/main.rs, with the outcome of the external
enumeration `serialport::available_ports()` passed in as a value: on `Ok`,
`ports.iter().any(|p| p.port_name == port_name)`; on `Err`, `unwrap_or(false)`
yields `false`.  The function is total: it never raises. -/
def port_exists (available : Except (List Char) (List (List Char)))
    (port_name : List Char) : Bool :=
  match available with
  | .ok ports => ports.any (fun p => p == port_name)
  | .error _ => false

/-- Outcome of one `port.read(&mut buffer)` call in the monitor loop:
`ok data` is `Ok(n)` where `data` is `buffer[..n]` (so `data.length ≤ 256`
for the real 256-byte buffer), `timedOut` is `Err(e)` with
`e.kind() == ErrorKind::TimedOut`, and `fatal msg` is any other `Err`. -/
inductive ReadResult where
  | ok : List Nat → ReadResult
  | timedOut : ReadResult
  | fatal : List Char → ReadResult
deriving DecidableEq

/-- `monitor_port` from src/main.rs, with the port modelled by the finite
trace of read outcomes observed so far.  The result is the list of lines
printed (one `println!` per `Ok` read: `format_hex` of the bytes when
`hex_mode`, else `String::from_utf8_lossy`) together with `some msg` when
the loop returned `Err` on a non-timeout read failure, or `none` when every
read in the trace was consumed and the loop is still polling (the real
loop is infinite and has no other exit). -/
def monitor_port (hex_mode : Bool) : List ReadResult → List (List Char) × Option (List Char)
  | [] => ([], none)
  | ReadResult.ok data :: rest =>
    let line := if hex_mode then format_hex data else utf8DecodeLossy data
    let r := monitor_port hex_mode rest
    (line :: r.1, r.2)
  | ReadResult.timedOut :: rest => monitor_port hex_mode rest
  | ReadResult.fatal msg :: _ => ([], some msg)

/-- The hex digit characters (case-insensitive), as the spec's §4.1 uses
the term: the characters `to_digit(16)` accepts. -/
def hexChars : List Char :=
  "0123456789abcdefABCDEF".toList

/-- The uppercase hex digit characters, the alphabet the spec says
`encode_hex` draws from. -/
def upperHexChars : List Char :=
  "0123456789ABCDEF".toList

/-! ## Helper lemmas -/

theorem utf8Size_pos (c : Char) : 0 < utf8Size c := by
  unfold utf8Size
  split_ifs <;> omega

theorem hexDigitUpper_facts : ∀ d < 16,
    keepChar (hexDigitUpper d) = true ∧ utf8Size (hexDigitUpper d) = 1 ∧
    hexDigitUpper d ≠ '+' ∧ hexDigitValue (hexDigitUpper d) = some d := by
  decide

theorem utf8Len_nil : utf8Len [] = 0 := rfl

theorem utf8Len_cons (c : Char) (l : List Char) :
    utf8Len (c :: l) = utf8Size c + utf8Len l := by
  simp [utf8Len]

theorem utf8Len_append (a b : List Char) :
    utf8Len (a ++ b) = utf8Len a + utf8Len b := by
  simp [utf8Len]

theorem foldl_enumFrom_format (l : List Nat) :
    ∀ (k : Nat) (acc : List Char), 0 < k →
      (l.enumFrom k).foldl
        (fun acc p => acc ++ (if p.1 > 0 then [' '] else []) ++ formatByteHex p.2) acc =
      acc ++ (l.map (fun x => ' ' :: formatByteHex x)).flatten := by
  induction l with
  | nil => intro k acc _; simp
  | cons x t ih =>
    intro k acc hk
    simp only [List.enumFrom_cons, List.foldl_cons]
    rw [ih (k + 1) _ (by omega)]
    simp [if_pos hk, List.append_assoc]

theorem format_hex_nil : format_hex [] = [] := rfl

theorem format_hex_cons_flatten (x : Nat) (l : List Nat) :
    format_hex (x :: l) =
      formatByteHex x ++ (l.map (fun y => ' ' :: formatByteHex y)).flatten := by
  unfold format_hex
  simp only [List.enum_cons, List.foldl_cons]
  rw [foldl_enumFrom_format l 1 _ (by omega)]
  simp

theorem format_hex_cons (x : Nat) (l : List Nat) :
    format_hex (x :: l) =
      formatByteHex x ++ (if l = [] then [] else ' ' :: format_hex l) := by
  cases l with
  | nil => simp [format_hex_cons_flatten]
  | cons y t => simp [format_hex_cons_flatten]

theorem keepChar_space : keepChar ' ' = false := by decide

theorem filter_formatByteHex (x : Nat) (hx : x < 256) :
    (formatByteHex x).filter keepChar = formatByteHex x := by
  have h1 := (hexDigitUpper_facts (x / 16) (by omega)).1
  have h2 := (hexDigitUpper_facts (x % 16) (by omega)).1
  simp [formatByteHex, List.filter, h1, h2]

theorem filter_sep_flatten (l : List Nat) (hl : ∀ x ∈ l, x < 256) :
    ((l.map (fun y => ' ' :: formatByteHex y)).flatten).filter keepChar =
      (l.map formatByteHex).flatten := by
  induction l with
  | nil => simp
  | cons y t ih =>
    simp only [List.map_cons, List.flatten_cons, List.filter_append, List.filter_cons,
      keepChar_space]
    rw [ih (fun x hx => hl x (List.mem_cons_of_mem _ hx)),
      filter_formatByteHex y (hl y (List.mem_cons_self _ _))]
    simp

theorem filter_format_hex (b : List Nat) (hb : ∀ x ∈ b, x < 256) :
    (format_hex b).filter keepChar = (b.map formatByteHex).flatten := by
  cases b with
  | nil => simp [format_hex_nil]
  | cons x t =>
    rw [format_hex_cons_flatten]
    simp only [List.filter_append, List.map_cons, List.flatten_cons]
    rw [filter_formatByteHex x (hb x (List.mem_cons_self _ _)),
      filter_sep_flatten t (fun y hy => hb y (List.mem_cons_of_mem _ hy))]

theorem utf8Len_formatByteHex (x : Nat) (hx : x < 256) :
    utf8Len (formatByteHex x) = 2 := by
  have h1 := (hexDigitUpper_facts (x / 16) (by omega)).2.1
  have h2 := (hexDigitUpper_facts (x % 16) (by omega)).2.1
  simp [formatByteHex, utf8Len, h1, h2]

theorem utf8Len_flatten_pairs (b : List Nat) (hb : ∀ x ∈ b, x < 256) :
    utf8Len ((b.map formatByteHex).flatten) = 2 * b.length := by
  induction b with
  | nil => simp [utf8Len]
  | cons x t ih =>
    simp only [List.map_cons, List.flatten_cons, utf8Len_append]
    rw [utf8Len_formatByteHex x (hb x (List.mem_cons_self _ _)),
      ih (fun y hy => hb y (List.mem_cons_of_mem _ hy))]
    simp only [List.length_cons]
    omega

theorem u8_from_formatByteHex : ∀ x < 256,
    u8_from_str_radix16 (formatByteHex x) = some x := by
  decide

theorem dropBytes_zero (s : List Char) : dropBytes s 0 = some s := by
  cases s <;> rfl

theorem dropBytes_append (a s : List Char) :
    dropBytes (a ++ s) (utf8Len a) = some s := by
  induction a with
  | nil => simpa [utf8Len] using dropBytes_zero s
  | cons c t ih =>
    have hpos := utf8Size_pos c
    obtain ⟨m, hm⟩ : ∃ m, utf8Len (c :: t) = m + 1 :=
      ⟨utf8Size c + utf8Len t - 1, by rw [utf8Len_cons]; omega⟩
    rw [List.cons_append, hm]
    have hle : utf8Size c ≤ m + 1 := by rw [utf8Len_cons] at hm; omega
    have hsub : m + 1 - utf8Size c = utf8Len t := by rw [utf8Len_cons] at hm; omega
    simp only [dropBytes, if_pos hle, hsub]
    exact ih

theorem takeBytes_two (c1 c2 : Char) (s : List Char)
    (h1 : utf8Size c1 = 1) (h2 : utf8Size c2 = 1) :
    takeBytes (c1 :: c2 :: s) 2 = some [c1, c2] := by
  simp [takeBytes, h1, h2]

theorem map_double_range (n : Nat) :
    (List.range n).map (fun j => 2 * j) = List.range' 0 n 2 := by
  induction n with
  | zero => rfl
  | succ m ih => rw [List.range_succ, List.map_append, ih, List.range'_concat]; simp

theorem byteSlice_pair (done t : List Nat) (x : Nat) (hd : ∀ y ∈ done, y < 256)
    (hx : x < 256) :
    byteSlice (((done ++ x :: t).map formatByteHex).flatten)
      (2 * done.length) (2 * done.length + 2) = some (formatByteHex x) := by
  unfold byteSlice
  rw [if_pos (by omega)]
  have hJ : ((done ++ x :: t).map formatByteHex).flatten =
      ((done.map formatByteHex).flatten) ++
        (formatByteHex x ++ ((t.map formatByteHex)).flatten) := by
    simp [List.map_append]
  have hlen : utf8Len ((done.map formatByteHex).flatten) = 2 * done.length :=
    utf8Len_flatten_pairs done hd
  rw [hJ, ← hlen, dropBytes_append]
  have hsub : utf8Len ((done.map formatByteHex).flatten) + 2 -
      utf8Len ((done.map formatByteHex).flatten) = 2 := by omega
  simp only [Option.some_bind, hsub]
  have e1 := (hexDigitUpper_facts (x / 16) (by omega)).2.1
  have e2 := (hexDigitUpper_facts (x % 16) (by omega)).2.1
  exact takeBytes_two _ _ _ e1 e2

theorem parsePairs_flatten (todo : List Nat) :
    ∀ done : List Nat, (∀ x ∈ done, x < 256) → (∀ x ∈ todo, x < 256) →
      parsePairsAt (((done ++ todo).map formatByteHex).flatten)
        (List.range' (2 * done.length) todo.length 2) = RustResult.ok todo := by
  induction todo with
  | nil => intro done _ _; simp [parsePairsAt]
  | cons x t ih =>
    intro done hd ht
    have hx : x < 256 := ht x (List.mem_cons_self _ _)
    rw [List.length_cons, List.range'_succ]
    simp only [parsePairsAt, byteSlice_pair done t x hd hx, u8_from_formatByteHex x hx]
    have harg : ((done ++ x :: t).map formatByteHex).flatten =
        (((done ++ [x]) ++ t).map formatByteHex).flatten := by
      simp
    have hlen2 : 2 * done.length + 2 = 2 * (done ++ [x]).length := by
      simp; omega
    rw [harg, hlen2]
    rw [ih (done ++ [x])
        (by intro y hy
            rcases List.mem_append.mp hy with h | h
            · exact hd y h
            · simp at h; omega)
        (fun y hy => ht y (List.mem_cons_of_mem _ hy))]

theorem parse_hex_format_hex (b : List Nat) (hb : ∀ x ∈ b, x < 256) :
    parse_hex (format_hex b) = RustResult.ok b := by
  simp only [parse_hex]
  rw [filter_format_hex b hb, utf8Len_flatten_pairs b hb]
  have hcount : (2 * b.length + 1) / 2 = b.length := by omega
  rw [hcount, map_double_range]
  have := parsePairs_flatten b [] (by simp) hb
  simpa using this

theorem utf8Size_ascii (c : Char) (h : c.toNat < 128) : utf8Size c = 1 := by
  unfold utf8Size
  rw [if_pos (by omega)]

theorem utf8Len_ascii (l : List Char) (h : ∀ c ∈ l, c.toNat < 128) :
    utf8Len l = l.length := by
  induction l with
  | nil => rfl
  | cons c t ih =>
    rw [utf8Len_cons, utf8Size_ascii c (h c (List.mem_cons_self _ _)),
      ih (fun d hd => h d (List.mem_cons_of_mem _ hd)), List.length_cons]
    omega

theorem dropBytes_ascii (l : List Char) :
    ∀ k, (∀ c ∈ l, c.toNat < 128) → k ≤ l.length →
      dropBytes l k = some (l.drop k) := by
  induction l with
  | nil =>
    intro k _ hk
    have : k = 0 := by simpa using hk
    simp [this, dropBytes_zero]
  | cons c t ih =>
    intro k hc hk
    cases k with
    | zero => simpa using dropBytes_zero (c :: t)
    | succ m =>
      have h1 : utf8Size c = 1 := utf8Size_ascii c (hc c (List.mem_cons_self _ _))
      simp only [dropBytes, h1, if_pos (by omega : 1 ≤ m + 1)]
      have hsub : m + 1 - 1 = m := by omega
      rw [hsub, ih m (fun d hd => hc d (List.mem_cons_of_mem _ hd)) (by simpa using hk)]
      simp

theorem takeBytes_ascii (l : List Char) :
    ∀ k, (∀ c ∈ l, c.toNat < 128) → k ≤ l.length →
      takeBytes l k = some (l.take k) := by
  induction l with
  | nil =>
    intro k _ hk
    have : k = 0 := by simpa using hk
    simp [this, takeBytes]
  | cons c t ih =>
    intro k hc hk
    cases k with
    | zero => simp [takeBytes]
    | succ m =>
      have h1 : utf8Size c = 1 := utf8Size_ascii c (hc c (List.mem_cons_self _ _))
      simp only [takeBytes, h1, if_pos (by omega : 1 ≤ m + 1)]
      have hsub : m + 1 - 1 = m := by omega
      rw [hsub, ih m (fun d hd => hc d (List.mem_cons_of_mem _ hd)) (by simpa using hk)]
      simp

theorem byteSlice_ascii (l : List Char) (i : Nat) (hc : ∀ c ∈ l, c.toNat < 128)
    (h : i + 2 ≤ l.length) : ∃ p, byteSlice l i (i + 2) = some p := by
  unfold byteSlice
  rw [if_pos (by omega), dropBytes_ascii l i hc (by omega)]
  have hsub : i + 2 - i = 2 := by omega
  simp only [Option.some_bind, hsub]
  rw [takeBytes_ascii (l.drop i) 2 (fun c hcm => hc c (List.mem_of_mem_drop hcm))
    (by simp; omega)]
  exact ⟨_, rfl⟩

theorem parsePairsAt_not_panicked (f : List Char) (idxs : List Nat)
    (h : ∀ i ∈ idxs, ∃ p, byteSlice f i (i + 2) = some p) :
    parsePairsAt f idxs ≠ RustResult.panicked := by
  induction idxs with
  | nil => simp [parsePairsAt]
  | cons i rest ih =>
    obtain ⟨p, hp⟩ := h i (List.mem_cons_self _ _)
    have hrest := ih (fun j hj => h j (List.mem_cons_of_mem _ hj))
    simp only [parsePairsAt, hp]
    cases hu : u8_from_str_radix16 p with
    | none => simp
    | some b =>
      cases hrec : parsePairsAt f rest with
      | ok bs => simp
      | err q => simp
      | panicked => exact absurd hrec hrest

theorem dropBytes_some_len :
    ∀ (l : List Char) (n : Nat) (t : List Char),
      dropBytes l n = some t → utf8Len l = n + utf8Len t := by
  intro l
  induction l with
  | nil =>
    intro n t h
    cases n with
    | zero => simp only [dropBytes_zero, Option.some.injEq] at h; simp [← h]
    | succ m => simp [dropBytes] at h
  | cons c rest ih =>
    intro n t h
    cases n with
    | zero => simp only [dropBytes_zero, Option.some.injEq] at h; simp [← h]
    | succ m =>
      simp only [dropBytes] at h
      by_cases hle : utf8Size c ≤ m + 1
      · rw [if_pos hle] at h
        have := ih (m + 1 - utf8Size c) t h
        rw [utf8Len_cons]
        omega
      · rw [if_neg hle] at h
        exact absurd h (by simp)

theorem takeBytes_some_len :
    ∀ (l : List Char) (n : Nat) (t : List Char),
      takeBytes l n = some t → n ≤ utf8Len l := by
  intro l
  induction l with
  | nil =>
    intro n t h
    cases n with
    | zero => simp [utf8Len]
    | succ m => simp [takeBytes] at h
  | cons c rest ih =>
    intro n t h
    cases n with
    | zero => simp [utf8Len_cons]
    | succ m =>
      simp only [takeBytes] at h
      by_cases hle : utf8Size c ≤ m + 1
      · rw [if_pos hle] at h
        cases ht : takeBytes rest (m + 1 - utf8Size c) with
        | none => rw [ht] at h; exact absurd h (by simp)
        | some u =>
          have := ih (m + 1 - utf8Size c) u ht
          rw [utf8Len_cons]
          omega
      · rw [if_neg hle] at h
        exact absurd h (by simp)

theorem byteSlice_some_bound (f : List Char) (i j : Nat) (p : List Char)
    (h : byteSlice f i j = some p) : j ≤ utf8Len f := by
  unfold byteSlice at h
  by_cases hij : i ≤ j
  · rw [if_pos hij] at h
    cases hd : dropBytes f i with
    | none => rw [hd] at h; exact absurd h (by simp)
    | some t =>
      rw [hd] at h
      simp only [Option.some_bind] at h
      have h1 := dropBytes_some_len f i t hd
      have h2 := takeBytes_some_len t (j - i) p h
      omega
  · rw [if_neg hij] at h
    exact absurd h (by simp)

theorem mem_pairIndices (len i : Nat) (h2 : i % 2 = 0) (hlt : i < len) :
    i ∈ (List.range ((len + 1) / 2)).map (fun j => 2 * j) := by
  apply List.mem_map.mpr
  exact ⟨i / 2, List.mem_range.mpr (by omega), by omega⟩

theorem parsePairsAt_err (f : List Char) :
    ∀ (idxs : List Nat) (p : List Char), parsePairsAt f idxs = RustResult.err p →
      ∃ i ∈ idxs, byteSlice f i (i + 2) = some p ∧ u8_from_str_radix16 p = none := by
  intro idxs
  induction idxs with
  | nil => intro p h; simp [parsePairsAt] at h
  | cons i rest ih =>
    intro p h
    simp only [parsePairsAt] at h
    cases hs : byteSlice f i (i + 2) with
    | none => rw [hs] at h; simp at h
    | some pair =>
      rw [hs] at h
      simp only at h
      cases hu : u8_from_str_radix16 pair with
      | none =>
        rw [hu] at h
        simp only [RustResult.err.injEq] at h
        exact ⟨i, List.mem_cons_self _ _, by rw [hs, h], by rw [← h]; exact hu⟩
      | some b =>
        rw [hu] at h
        simp only at h
        cases hrec : parsePairsAt f rest with
        | ok bs => rw [hrec] at h; simp at h
        | err q =>
          rw [hrec] at h
          simp only [RustResult.err.injEq] at h
          obtain ⟨j, hj, hj2⟩ := ih q hrec
          exact ⟨j, List.mem_cons_of_mem _ hj, by rw [← h]; exact hj2.1,
            by rw [← h]; exact hj2.2⟩
        | panicked => rw [hrec] at h; simp at h

theorem parsePairsAt_ok (f : List Char) :
    ∀ (idxs : List Nat) (bs : List Nat), parsePairsAt f idxs = RustResult.ok bs →
      ∀ i ∈ idxs, ∃ pair b, byteSlice f i (i + 2) = some pair ∧
        u8_from_str_radix16 pair = some b := by
  intro idxs
  induction idxs with
  | nil => intro bs _ i hi; simp at hi
  | cons i rest ih =>
    intro bs h j hj
    simp only [parsePairsAt] at h
    cases hs : byteSlice f i (i + 2) with
    | none => rw [hs] at h; simp at h
    | some pair =>
      rw [hs] at h
      simp only at h
      cases hu : u8_from_str_radix16 pair with
      | none => rw [hu] at h; simp at h
      | some b =>
        rw [hu] at h
        simp only at h
        cases hrec : parsePairsAt f rest with
        | ok cs =>
          rcases List.mem_cons.mp hj with rfl | hj'
          · exact ⟨pair, b, hs, hu⟩
          · exact ih cs hrec j hj'
        | err q => rw [hrec] at h; simp at h
        | panicked => rw [hrec] at h; simp at h

theorem upperHex_mem : ∀ d < 16, hexDigitUpper d ∈ upperHexChars := by
  decide

theorem parse_hex_ascii_even_not_panicked (s : List Char)
    (hs : ∀ c ∈ s, c.toNat < 128)
    (heven : (s.filter keepChar).length % 2 = 0) :
    parse_hex s ≠ RustResult.panicked := by
  have hfa : ∀ c ∈ s.filter keepChar, c.toNat < 128 :=
    fun c hc => hs c (List.mem_of_mem_filter hc)
  have hlen : utf8Len (s.filter keepChar) = (s.filter keepChar).length :=
    utf8Len_ascii _ hfa
  simp only [parse_hex]
  apply parsePairsAt_not_panicked
  intro i hi
  obtain ⟨j, hj, rfl⟩ := List.mem_map.mp hi
  have hjlt := List.mem_range.mp hj
  rw [hlen] at hjlt
  exact byteSlice_ascii _ _ hfa (by omega)

/-! ## The claims -/

/-- **C1** (evidence for the code bug): the claim — and §7/§9 of the spec —
say an odd-length hex input must fail immediately with `InvalidHexInput`
before any pair is parsed.  The code instead only prints a warning and
falls through: on `"ABC"` it parses the pair `"AB"` and then panics on the
out-of-range slice `filtered[2..4]`, so no `InvalidHexInput` error is ever
returned. -/
theorem c1_parse_hex_odd_input_panics :
    parse_hex ("ABC".toList) = RustResult.panicked := by
  decide

/-- **C2**: for every byte sequence `b` (`u8` values, i.e. all below 256),
decoding the encoding round-trips: `parse_hex (format_hex b)` succeeds and
returns exactly `b`; in particular `format_hex` output is always valid
`parse_hex` input. -/
theorem c2_decode_encode_roundtrip (b : List Nat) (hb : ∀ x ∈ b, x < 256) :
    parse_hex (format_hex b) = RustResult.ok b :=
  parse_hex_format_hex b hb

/-- Witness for C2 at the concrete byte sequence `[0xDE, 0xAD, 0x00]`. -/
theorem c2_decode_encode_roundtrip_witness :
    parse_hex (format_hex [0xDE, 0xAD, 0x00]) = RustResult.ok [0xDE, 0xAD, 0x00] :=
  c2_decode_encode_roundtrip [0xDE, 0xAD, 0x00] (by decide)

/-- **C3**: the monitor loop is a two-state step relation: a timed-out read
emits no output and the loop keeps polling; a read of `n > 0` bytes emits
exactly one line per read call (hex-encoded when `hex_mode`, else lossy
UTF-8) and keeps polling; a non-timeout read failure terminates the loop,
propagating the failure; and the loop terminates in no other way. -/
theorem c3_monitor_port_step_relation :
    (∀ (hm : Bool) (rest : List ReadResult),
       monitor_port hm (ReadResult.timedOut :: rest) = monitor_port hm rest) ∧
    (∀ (hm : Bool) (data : List Nat) (rest : List ReadResult), data ≠ [] →
       monitor_port hm (ReadResult.ok data :: rest) =
         ((if hm then format_hex data else utf8DecodeLossy data) ::
            (monitor_port hm rest).1, (monitor_port hm rest).2)) ∧
    (∀ (hm : Bool) (msg : List Char) (rest : List ReadResult),
       monitor_port hm (ReadResult.fatal msg :: rest) = ([], some msg)) ∧
    (∀ (hm : Bool) (trace : List ReadResult) (msg : List Char),
       (monitor_port hm trace).2 = some msg → ReadResult.fatal msg ∈ trace) := by
  refine ⟨fun hm rest => rfl, fun hm data rest _ => rfl, fun hm msg rest => rfl, ?_⟩
  intro hm trace msg h
  induction trace with
  | nil => simp [monitor_port] at h
  | cons r rest ih =>
    cases r with
    | ok data =>
      simp only [monitor_port] at h
      exact List.mem_cons_of_mem _ (ih h)
    | timedOut =>
      simp only [monitor_port] at h
      exact List.mem_cons_of_mem _ (ih h)
    | fatal m =>
      simp only [monitor_port, Option.some.injEq] at h
      subst h
      exact List.mem_cons_self _ _

/-- Witness for C3 at concrete one-step traces. -/
theorem c3_monitor_port_step_relation_witness :
    monitor_port true [ReadResult.timedOut] = monitor_port true [] ∧
    monitor_port true [ReadResult.ok [0x41]] = (["41".toList], none) ∧
    monitor_port true [ReadResult.fatal ['x']] = ([], some ['x']) ∧
    ReadResult.fatal ['x'] ∈ [ReadResult.fatal ['x']] := by
  refine ⟨c3_monitor_port_step_relation.1 true [],
    ?_,
    c3_monitor_port_step_relation.2.2.1 true ['x'] [],
    c3_monitor_port_step_relation.2.2.2 true [ReadResult.fatal ['x']] ['x'] (by decide)⟩
  have h := c3_monitor_port_step_relation.2.1 true [0x41] [] (by decide)
  rw [h]
  decide

/-- **C4**: with `hex_mode = false`, `send_message` issues exactly one
`write_all` call carrying the UTF-8 bytes of the message verbatim, followed
by exactly one `flush` call; in particular `"hello"` writes exactly the
five bytes `h e l l o` and then flushes. -/
theorem c4_send_message_plain_writes_verbatim_then_flush :
    (∀ msg : List Char, send_message msg false =
       RustResult.ok [PortOp.write (utf8Encode msg), PortOp.flushCall]) ∧
    send_message ("hello".toList) false =
      RustResult.ok [PortOp.write [104, 101, 108, 108, 111], PortOp.flushCall] :=
  ⟨fun msg => rfl, by decide⟩

/-- **C5**: `port_exists` is a total boolean function (it never raises): it
returns `true` exactly when enumeration succeeded and the identifier is a
member of the enumerated list; any enumeration failure yields `false`, and
a never-registered identifier yields `false`. -/
theorem c5_port_exists_membership_total :
    (∀ (r : Except (List Char) (List (List Char))) (name : List Char),
       port_exists r name = true ↔ ∃ ports, r = Except.ok ports ∧ name ∈ ports) ∧
    (∀ (e : List Char) (name : List Char),
       port_exists (Except.error e) name = false) ∧
    port_exists (Except.ok ["COM1".toList, "COM3".toList]) ("COM9".toList) = false := by
  refine ⟨?_, fun e name => rfl, by decide⟩
  intro r name
  cases r with
  | error e => simp [port_exists]
  | ok ports => simp [port_exists, List.any_eq_true, beq_iff_eq]

/-- **C6**: `parse_hex` strips whitespace and colons before parsing (its
result on any input equals its result on the separator-stripped input), and
parses each pair of hex digits case-insensitively as one byte:
`"A1B2"` gives `[0xA1, 0xB2]`, `"a1:b2 c3"` gives `[0xA1, 0xB2, 0xC3]`, and
any two hex digit characters `c1 c2` parse to `16 * val c1 + val c2`. -/
theorem c6_parse_hex_strips_separators_case_insensitive :
    (∀ s : List Char, parse_hex (s.filter keepChar) = parse_hex s) ∧
    parse_hex ("A1B2".toList) = RustResult.ok [0xA1, 0xB2] ∧
    parse_hex ("a1:b2 c3".toList) = RustResult.ok [0xA1, 0xB2, 0xC3] ∧
    (∀ c1 ∈ hexChars, ∀ c2 ∈ hexChars,
       parse_hex [c1, c2] =
         RustResult.ok [16 * (hexDigitValue c1).getD 0 + (hexDigitValue c2).getD 0]) := by
  refine ⟨?_, by decide, by decide, by decide⟩
  intro s
  have hff : (s.filter keepChar).filter keepChar = s.filter keepChar :=
    List.filter_eq_self.mpr (fun a ha => List.of_mem_filter ha)
  simp only [parse_hex, hff]

/-- Witness for C6 at the concrete hex digit pair `'7' 'f'`. -/
theorem c6_parse_hex_strips_separators_case_insensitive_witness :
    parse_hex ['7', 'f'] = RustResult.ok [0x7F] := by
  have h := c6_parse_hex_strips_separators_case_insensitive.2.2.2
    '7' (by decide) 'f' (by decide)
  have e : 16 * (hexDigitValue '7').getD 0 + (hexDigitValue 'f').getD 0 = 0x7F := by
    decide
  rw [e] at h
  exact h

/-- **C7**: `format_hex` maps the empty sequence to the empty string,
renders each byte as exactly two uppercase hex digits, and joins
consecutive bytes with a single space with no leading or trailing
separator; in particular `[0x41, 0x0A]` renders as `"41 0A"`. -/
theorem c7_format_hex_two_upper_digits_space_separated :
    format_hex [] = [] ∧
    format_hex [0x41, 0x0A] = "41 0A".toList ∧
    (∀ (x : Nat) (l : List Nat), format_hex (x :: l) =
       formatByteHex x ++ (if l = [] then [] else ' ' :: format_hex l)) ∧
    (∀ x : Nat, x < 256 → (formatByteHex x).length = 2 ∧
       ∀ c ∈ formatByteHex x, c ∈ upperHexChars) := by
  refine ⟨rfl, by decide, format_hex_cons, ?_⟩
  intro x hx
  refine ⟨rfl, ?_⟩
  intro c hc
  have h1 := upperHex_mem (x / 16) (by omega)
  have h2 := upperHex_mem (x % 16) (by omega)
  simp only [formatByteHex, List.mem_cons, List.not_mem_nil, or_false] at hc
  rcases hc with rfl | rfl
  · exact h1
  · exact h2

/-- Witness for C7 at the concrete byte `0x41`. -/
theorem c7_format_hex_two_upper_digits_space_separated_witness :
    (formatByteHex 0x41).length = 2 ∧ ∀ c ∈ formatByteHex 0x41, c ∈ upperHexChars :=
  c7_format_hex_two_upper_digits_space_separated.2.2.2 0x41 (by decide)

/-- **C8**: whenever `parse_hex` reports an error, the error names the
offending two-character substring itself: the reported pair is an
even-indexed two-byte slice of the separator-stripped input on which
base-16 parsing failed; conversely on ASCII input of even stripped length
containing an unparsable pair, `parse_hex` fails with such an error; in
particular `"ZZ"` fails naming `"ZZ"`. -/
theorem c8_invalid_pair_yields_error_naming_pair :
    (∀ s p : List Char, parse_hex s = RustResult.err p →
       u8_from_str_radix16 p = none ∧
       ∃ i, i % 2 = 0 ∧ byteSlice (s.filter keepChar) i (i + 2) = some p) ∧
    (∀ s : List Char, (∀ c ∈ s, c.toNat < 128) →
       (s.filter keepChar).length % 2 = 0 →
       (∃ i p, i % 2 = 0 ∧ byteSlice (s.filter keepChar) i (i + 2) = some p ∧
          u8_from_str_radix16 p = none) →
       ∃ p, parse_hex s = RustResult.err p ∧ u8_from_str_radix16 p = none) ∧
    parse_hex ("ZZ".toList) = RustResult.err ['Z', 'Z'] := by
  refine ⟨?_, ?_, by decide⟩
  · intro s p h
    simp only [parse_hex] at h
    obtain ⟨i, hi, hsl, hu⟩ := parsePairsAt_err _ _ p h
    obtain ⟨j, _, rfl⟩ := List.mem_map.mp hi
    exact ⟨hu, 2 * j, by omega, hsl⟩
  · intro s hascii heven hbad
    have hnp := parse_hex_ascii_even_not_panicked s hascii heven
    have hfa : ∀ c ∈ s.filter keepChar, c.toNat < 128 :=
      fun c hc => hascii c (List.mem_of_mem_filter hc)
    have hlen : utf8Len (s.filter keepChar) = (s.filter keepChar).length :=
      utf8Len_ascii _ hfa
    cases hres : parse_hex s with
    | ok v =>
      obtain ⟨i, p, hi2, hsl, hu⟩ := hbad
      have hbound := byteSlice_some_bound _ _ _ _ hsl
      have hmem : i ∈ (List.range ((utf8Len (s.filter keepChar) + 1) / 2)).map
          (fun j => 2 * j) := by
        apply mem_pairIndices
        · exact hi2
        · omega
      simp only [parse_hex] at hres
      obtain ⟨pair, b, hsl2, hu2⟩ := parsePairsAt_ok _ _ v hres i hmem
      rw [hsl] at hsl2
      have : p = pair := by injection hsl2
      rw [← this] at hu2
      rw [hu] at hu2
      exact absurd hu2 (by simp)
    | err p =>
      have hres' := hres
      simp only [parse_hex] at hres'
      obtain ⟨i, hi, hsl, hu⟩ := parsePairsAt_err _ _ p hres'
      exact ⟨p, rfl, hu⟩
    | panicked => exact absurd hres hnp

/-- Witness for C8 at the concrete input `"AAZZ"`. -/
theorem c8_invalid_pair_yields_error_naming_pair_witness :
    ∃ p, parse_hex ("AAZZ".toList) = RustResult.err p ∧
      u8_from_str_radix16 p = none :=
  c8_invalid_pair_yields_error_naming_pair.2.1 ("AAZZ".toList) (by decide) (by decide)
    ⟨2, ['Z', 'Z'], by decide, by decide, by decide⟩

/-- **C9**: a read that succeeds with exactly zero bytes (`Ok(0)`, e.g.
end of stream, as opposed to a timeout error) takes the same branch as a
read of `n > 0` bytes: the monitor emits one empty output line and keeps
looping. -/
theorem c9_monitor_port_ok_zero_emits_empty_line :
    ∀ (hm : Bool) (rest : List ReadResult),
      monitor_port hm (ReadResult.ok [] :: rest) =
        (([] : List Char) :: (monitor_port hm rest).1, (monitor_port hm rest).2) := by
  intro hm rest
  cases hm <;> rfl

/-- **C10**: on input consisting only of ASCII characters whose
separator-stripped length is even, `parse_hex` is total: it returns either
a parsed byte vector or an invalid-byte error, never panicking; outside
this precondition the slice `filtered[i..i+2]` can fall off the end (C1's
odd-length case) or inside a multi-byte character, as on `"aéa"`, whose
stripped byte length is even yet which panics on a character-boundary
violation. -/
theorem c10_parse_hex_total_on_even_ascii :
    (∀ s : List Char, (∀ c ∈ s, c.toNat < 128) →
       (s.filter keepChar).length % 2 = 0 →
       (∃ v, parse_hex s = RustResult.ok v) ∨
       (∃ p, parse_hex s = RustResult.err p)) ∧
    parse_hex ("aéa".toList) = RustResult.panicked := by
  refine ⟨?_, by decide⟩
  intro s hs heven
  have hnp := parse_hex_ascii_even_not_panicked s hs heven
  cases hres : parse_hex s with
  | ok v => exact Or.inl ⟨v, rfl⟩
  | err p => exact Or.inr ⟨p, rfl⟩
  | panicked => exact absurd hres hnp

/-- Witness for C10 at the concrete input `"A1"`. -/
theorem c10_parse_hex_total_on_even_ascii_witness :
    (∃ v, parse_hex ("A1".toList) = RustResult.ok v) ∨
    (∃ p, parse_hex ("A1".toList) = RustResult.err p) :=
  c10_parse_hex_total_on_even_ascii.1 ("A1".toList) (by decide) (by decide)

end SerialTool
